import Mathlib

/-!
Verification of the character-level n-gram language model from
`nbs/n-gram music reviews.ipynb` (functions `normalize`, `train_char_lm`,
`generate_letter`, `generate_text`, `perplexity`).

Strings are modelled as `List Char`; Python integer counts as `ℕ`; the
floating-point probabilities as exact rationals `ℚ`; the transcendental
`math.log` / `math.exp` as `Real.log` / `Real.exp`.
-/

namespace NGram

/-- `'~' * n`: the pad prefix used by `train_char_lm` and `perplexity`. -/
def padL (n : ℕ) : List Char := List.replicate n '~'

/-- `''.join([pad + text for text in texts])`: the padded stream. -/
def stream (texts : List (List Char)) (n : ℕ) : List Char :=
  (texts.map (fun t => padL n ++ t)).flatten

/-- `data[i:i+n]`: the history at scan position `i`. -/
def histAt (S : List Char) (n i : ℕ) : List Char := (S.drop i).take n

/-- `data[i]`: character at index `i` (the default is never consulted at
in-range indices, which are the only ones the scan loop uses). -/
def charAt (S : List Char) (i : ℕ) : Char := S.getD i '~'

/-- Final value of `lm[h][c]` after the training loop
`for i in range(len(data)-n): lm[data[i:i+n]][data[i+n]] += 1`. -/
def trainCounts (S : List Char) (n : ℕ) (h : List Char) (c : Char) : ℕ :=
  ((Finset.range (S.length - n)).filter
    (fun i => histAt S n i = h ∧ charAt S (i + n) = c)).card

/-- Number of scan positions whose history is `h` (how often `h` occurs as a
scanned history). -/
def histPositions (S : List Char) (n : ℕ) (h : List Char) : ℕ :=
  ((Finset.range (S.length - n)).filter (fun i => histAt S n i = h)).card

/-- A trained model `outlm`: outer dict keys, inner dict (`Counter`) keys per
history, and the normalized probability values.  Iteration order of the
Python dicts is immaterial to every property proved below, so the key sets
are `Finset`s. -/
structure Model where
  keys : Finset (List Char)
  support : List Char → Finset Char
  prob : List Char → Char → ℚ

/-- `sum(lm[h].values())` for a model. -/
def Model.sumV (m : Model) (h : List Char) : ℚ :=
  ∑ c ∈ m.support h, m.prob h c

/-- `sum(counter.values())` inside `normalize`, for the counter accumulated
at history `h`: the sum of the counts of the characters observed after `h`. -/
def sumCounts (S : List Char) (n : ℕ) (h : List Char) : ℕ :=
  ∑ c ∈ ((Finset.range (S.length - n)).filter (fun i => histAt S n i = h)).image
      (fun i => charAt S (i + n)),
    trainCounts S n h c

/-- `train_char_lm(texts, n)` (without the timing print):
`lm` keys are the scanned histories, `lm[h]` keys the characters seen after
`h`, and `normalize` divides each count by the counter's value sum. -/
def trainModel (texts : List (List Char)) (n : ℕ) : Model :=
  let S := stream texts n
  { keys := (Finset.range (S.length - n)).image (histAt S n)
    support := fun h =>
      ((Finset.range (S.length - n)).filter (fun i => histAt S n i = h)).image
        (fun i => charAt S (i + n))
    prob := fun h c => (trainCounts S n h c : ℚ) / (sumCounts S n h : ℚ) }

/-- `unk_hist`'s key set after the scan in `perplexity`: histories present in
the model for which some scanned position observed a character outside the
history's distribution. -/
def unkHists (m : Model) (T : List Char) (n : ℕ) : Finset (List Char) :=
  ((Finset.range (T.length - n)).filter
    (fun i => histAt T n i ∈ m.keys ∧
      charAt T (i + n) ∉ m.support (histAt T n i))).image (histAt T n)

/-- Final value of `logsum` in `perplexity`: `log(dist[char])` for every scan
position whose history is in the model and whose character is in that
distribution (positions with absent history `continue`, contributing
nothing), plus, once per history in `unk_hist`, `log(1/(sum(lm[h].values())+1))`. -/
noncomputable def logSum (m : Model) (T : List Char) (n : ℕ) : ℝ :=
  (∑ i ∈ Finset.range (T.length - n),
    if histAt T n i ∈ m.keys ∧ charAt T (i + n) ∈ m.support (histAt T n i)
    then Real.log ((m.prob (histAt T n i) (charAt T (i + n)) : ℚ) : ℝ)
    else 0)
  + ∑ h ∈ unkHists m T n, Real.log (1 / (((m.sumV h : ℚ) : ℝ) + 1))

/-- `perplexity(lm, test_data, n) = exp(-1 * logsum / len(data))` with `data`
the padded test stream. -/
noncomputable def perplexity (m : Model) (testTexts : List (List Char)) (n : ℕ) : ℝ :=
  Real.exp (-(logSum m (stream testTexts n) n) / ((stream testTexts n).length : ℝ))

/-- Rational product of the per-position factors of the first sum of
`logSum` (skipped positions contribute the factor `1`). -/
def scanProd (m : Model) (T : List Char) (n : ℕ) : ℚ :=
  ∏ i ∈ Finset.range (T.length - n),
    if histAt T n i ∈ m.keys ∧ charAt T (i + n) ∈ m.support (histAt T n i)
    then m.prob (histAt T n i) (charAt T (i + n)) else 1

/-- Rational product of the per-history correction factors of `logSum`. -/
def corrProd (m : Model) (T : List Char) (n : ℕ) : ℚ :=
  ∏ h ∈ unkHists m T n, 1 / (m.sumV h + 1)

/-- The `(history, next-char)` pairs scanned inside a single stream `S`. -/
def windowPairs (S : List Char) (n : ℕ) : List (List Char × Char) :=
  (List.range (S.length - n)).map (fun i => (histAt S n i, charAt S (i + n)))

/-- The multiset of scan pairs a single padded document would contribute on
its own. -/
def blockPairs (n : ℕ) (d : List Char) : Multiset (List Char × Char) :=
  (windowPairs (padL n ++ d) n : List (List Char × Char))

/-- Error taxonomy of spec §7.  The notebook reference has none of these;
they specify the explicit-error reimplementation. -/
inductive LMError where
  | invalidOrder
  | emptyStream
  | emptyCorpus
  | unknownHistory
deriving DecidableEq

/-- Modelled from the spec: the notebook's `train_char_lm` has no error
handling; §4.1 mandates `InvalidOrderError` for order ≤ 0 and §4.2
`EmptyStreamError` when the padded stream length is ≤ n (no scan window
fits); otherwise the trained model of the reference algorithm is returned. -/
def train (texts : List (List Char)) (n : ℕ) : Except LMError Model :=
  if n = 0 then .error .invalidOrder
  else if (stream texts n).length ≤ n then .error .emptyStream
  else .ok (trainModel texts n)

/-- Modelled from the spec: §4.4 mandates `EmptyCorpusError` when the test
corpus is empty; otherwise the reference `perplexity` value is returned. -/
noncomputable def perplexityChecked (m : Model) (testTexts : List (List Char))
    (n : ℕ) : Except LMError ℝ :=
  if testTexts = [] then .error .emptyCorpus else .ok (perplexity m testTexts n)

/-- `history[-n:]`. -/
def lastN (l : List Char) (n : ℕ) : List Char := l.drop (l.length - n)

/-- The sampling walk of §4.3 step (c): subtract each probability from `x`
until the remainder is ≤ 0 and emit that character. -/
def walk : List (Char × ℚ) → ℚ → Option Char
  | [], _ => none
  | (c, v) :: rest, x => if x - v ≤ 0 then some c else walk rest (x - v)

/-- Modelled from the spec: the notebook's `generate_letter` silently
misbehaves on a history absent from the model; §4.3/§7 mandate an explicit
`UnknownHistoryError` instead.  The distribution is walked in a fixed,
reproducible order (§4.3 allows any; character order is used here).  The
exhausted-walk case — unreachable when `x < 1` and the distribution sums to
1 — is not specified and is mapped to the same explicit failure. -/
def generate_letter (m : Model) (history : List Char) (n : ℕ) (x : ℚ) :
    Except LMError Char :=
  let h := lastN history n
  if h ∈ m.keys then
    match walk (((m.support h).sort (· ≤ ·)).map (fun c => (c, m.prob h c))) x with
    | some c => .ok c
    | none => .error .unknownHistory
  else .error .unknownHistory

/-- The generation loop of `generate_text` from step `k` with `fuel`
remaining characters to emit, current history `hist`; modelled from the
spec with an injected random source `rng` (§4.3) and explicit error
propagation. -/
def genFrom (m : Model) (n : ℕ) (rng : ℕ → ℚ) :
    ℕ → List Char → ℕ → Except LMError (List Char)
  | 0, _, _ => .ok []
  | fuel + 1, hist, k =>
    match generate_letter m hist n (rng k) with
    | .error e => .error e
    | .ok c =>
      match genFrom m n rng fuel (lastN hist n ++ [c]) (k + 1) with
      | .error e => .error e
      | .ok out => .ok (c :: out)

/-- Modelled from the spec: `generate(model, order, length, rng)` of §6,
starting from the all-pad history as in the notebook's `generate_text`. -/
def generate_text (m : Model) (n L : ℕ) (rng : ℕ → ℚ) :
    Except LMError (List Char) :=
  genFrom m n rng L (padL n) 0

/-! ### Counting lemmas -/

/-- `sum(counter.values())` at history `h` equals the number of scan
positions whose history is `h`: the counter's values partition those
positions by the observed next character. -/
lemma histPositions_eq_sumCounts (S : List Char) (n : ℕ) (h : List Char) :
    histPositions S n h = sumCounts S n h := by
  unfold histPositions sumCounts trainCounts
  rw [Finset.card_eq_sum_card_fiberwise
    (f := fun i => charAt S (i + n))
    (t := ((Finset.range (S.length - n)).filter
      (fun i => histAt S n i = h)).image (fun i => charAt S (i + n)))
    (fun i hi => Finset.mem_image_of_mem _ hi)]
  exact Finset.sum_congr rfl (fun c _ => by rw [Finset.filter_filter])

lemma mem_keys_trainModel {texts : List (List Char)} {n : ℕ} {h : List Char} :
    h ∈ (trainModel texts n).keys ↔
      0 < histPositions (stream texts n) n h := by
  unfold trainModel histPositions
  rw [Finset.card_pos, Finset.filter_nonempty_iff]
  simp [Finset.mem_image]

lemma mem_support_trainModel {texts : List (List Char)} {n : ℕ} {h : List Char}
    {c : Char} :
    c ∈ (trainModel texts n).support h ↔
      0 < trainCounts (stream texts n) n h c := by
  unfold trainModel trainCounts
  rw [Finset.card_pos, Finset.filter_nonempty_iff]
  simp [Finset.mem_image, Finset.mem_filter, and_assoc]

lemma prob_trainModel (texts : List (List Char)) (n : ℕ) (h : List Char)
    (c : Char) :
    (trainModel texts n).prob h c =
      (trainCounts (stream texts n) n h c : ℚ) /
        (sumCounts (stream texts n) n h : ℚ) := rfl

lemma support_trainModel (texts : List (List Char)) (n : ℕ) (h : List Char) :
    (trainModel texts n).support h =
      ((Finset.range ((stream texts n).length - n)).filter
        (fun i => histAt (stream texts n) n i = h)).image
        (fun i => charAt (stream texts n) (i + n)) := rfl

lemma sum_support_counts (texts : List (List Char)) (n : ℕ) (h : List Char) :
    ∑ c ∈ (trainModel texts n).support h,
      trainCounts (stream texts n) n h c = sumCounts (stream texts n) n h := by
  rw [support_trainModel]; rfl

/-- The distribution values of a trained model sum to exactly `1` at every
history the model contains. -/
lemma sumV_trainModel {texts : List (List Char)} {n : ℕ} {h : List Char}
    (hk : h ∈ (trainModel texts n).keys) :
    (trainModel texts n).sumV h = 1 := by
  have hpos : 0 < sumCounts (stream texts n) n h := by
    rw [← histPositions_eq_sumCounts]; exact mem_keys_trainModel.mp hk
  unfold Model.sumV
  have : ∑ c ∈ (trainModel texts n).support h, (trainModel texts n).prob h c =
      (∑ c ∈ (trainModel texts n).support h,
        (trainCounts (stream texts n) n h c : ℚ)) /
        (sumCounts (stream texts n) n h : ℚ) := by
    rw [Finset.sum_div]
    exact Finset.sum_congr rfl (fun c _ => prob_trainModel texts n h c)
  rw [this]
  rw [show (∑ c ∈ (trainModel texts n).support h,
      (trainCounts (stream texts n) n h c : ℚ)) =
      ((∑ c ∈ (trainModel texts n).support h,
        trainCounts (stream texts n) n h c : ℕ) : ℚ) by push_cast; rfl]
  rw [sum_support_counts]
  exact div_self (by exact_mod_cast hpos.ne')

lemma prob_pos_trainModel {texts : List (List Char)} {n : ℕ} {h : List Char}
    {c : Char} (hc : c ∈ (trainModel texts n).support h) :
    0 < (trainModel texts n).prob h c := by
  have hcount := mem_support_trainModel.mp hc
  have hsum : 0 < sumCounts (stream texts n) n h := by
    rw [← histPositions_eq_sumCounts]
    unfold histPositions
    refine Finset.card_pos.mpr ?_
    obtain ⟨i, hi⟩ := Finset.card_pos.mp hcount
    rw [Finset.mem_filter] at hi
    exact ⟨i, Finset.mem_filter.mpr ⟨hi.1, hi.2.1⟩⟩
  rw [prob_trainModel]
  exact div_pos (by exact_mod_cast hcount) (by exact_mod_cast hsum)

lemma prob_nonneg_trainModel (texts : List (List Char)) (n : ℕ) (h : List Char)
    (c : Char) : 0 ≤ (trainModel texts n).prob h c := by
  rw [prob_trainModel]
  positivity

lemma prob_le_one_trainModel (texts : List (List Char)) (n : ℕ) (h : List Char)
    (c : Char) : (trainModel texts n).prob h c ≤ 1 := by
  rw [prob_trainModel]
  rcases Nat.eq_zero_or_pos (trainCounts (stream texts n) n h c) with h0 | hpos
  · rw [h0]; simp
  · have hc : c ∈ (trainModel texts n).support h := mem_support_trainModel.mpr hpos
    have hle : trainCounts (stream texts n) n h c ≤ sumCounts (stream texts n) n h := by
      rw [← sum_support_counts texts n h]
      exact Finset.single_le_sum (fun _ _ => Nat.zero_le _) hc
    rw [div_le_one (by exact_mod_cast lt_of_lt_of_le hpos hle)]
    exact_mod_cast hle

/-! ### Claim theorems -/

/-- **C1.** For every order `n` and padded training stream `S`, the trained
model has an entry for `(h, c)` exactly when `(h, c)` occurs as
`(S[i:i+n], S[i+n])` at some scan position `i < len(S) - n`, and the entry's
value is the number of such occurrences divided by the number of occurrences
of the history `h`, with no smoothing term. -/
theorem train_entry_characterization (texts : List (List Char)) (n : ℕ)
    (h : List Char) (c : Char) :
    ((h ∈ (trainModel texts n).keys ∧ c ∈ (trainModel texts n).support h) ↔
      ∃ i, i < (stream texts n).length - n ∧
        histAt (stream texts n) n i = h ∧ charAt (stream texts n) (i + n) = c)
    ∧ (trainModel texts n).prob h c =
        (trainCounts (stream texts n) n h c : ℚ) /
          (histPositions (stream texts n) n h : ℚ) := by
  constructor
  · constructor
    · rintro ⟨-, hc⟩
      have := mem_support_trainModel.mp hc
      obtain ⟨i, hi⟩ := Finset.card_pos.mp this
      rw [Finset.mem_filter, Finset.mem_range] at hi
      exact ⟨i, hi.1, hi.2⟩
    · rintro ⟨i, hi, hh, hc⟩
      have hmem : c ∈ (trainModel texts n).support h := by
        rw [mem_support_trainModel]
        exact Finset.card_pos.mpr
          ⟨i, Finset.mem_filter.mpr ⟨Finset.mem_range.mpr hi, hh, hc⟩⟩
      refine ⟨?_, hmem⟩
      rw [mem_keys_trainModel]
      exact Finset.card_pos.mpr
        ⟨i, Finset.mem_filter.mpr ⟨Finset.mem_range.mpr hi, hh⟩⟩
  · rw [prob_trainModel, histPositions_eq_sumCounts]

/-- **C5.** For every trained model and history present in it, the
distribution sums to exactly `1` (hence within the claimed `1e-9`
tolerance), an entry for a character exists exactly when that character was
observed after the history in the training stream, and all entries are
positive. -/
theorem trained_distribution_invariant (texts : List (List Char)) (n : ℕ)
    (h : List Char) (hk : h ∈ (trainModel texts n).keys) :
    (∑ c ∈ (trainModel texts n).support h, (trainModel texts n).prob h c) = 1
    ∧ |(∑ c ∈ (trainModel texts n).support h, (trainModel texts n).prob h c)
        - 1| ≤ 1 / 10 ^ 9
    ∧ (∀ c : Char, c ∈ (trainModel texts n).support h ↔
        0 < trainCounts (stream texts n) n h c)
    ∧ ∀ c ∈ (trainModel texts n).support h,
        0 < (trainModel texts n).prob h c := by
  have h1 : (∑ c ∈ (trainModel texts n).support h,
      (trainModel texts n).prob h c) = 1 := sumV_trainModel hk
  refine ⟨h1, by rw [h1]; norm_num, fun c => mem_support_trainModel,
    fun c hc => prob_pos_trainModel hc⟩

/-- **C5 witness.** The invariant instantiated on the model trained on the
single document `"aab"` with order 1, at the history `"a"`. -/
theorem trained_distribution_invariant_witness :
    ['a'] ∈ (trainModel [['a', 'a', 'b']] 1).keys ∧
    ((∑ c ∈ (trainModel [['a', 'a', 'b']] 1).support ['a'],
        (trainModel [['a', 'a', 'b']] 1).prob ['a'] c) = 1
    ∧ |(∑ c ∈ (trainModel [['a', 'a', 'b']] 1).support ['a'],
        (trainModel [['a', 'a', 'b']] 1).prob ['a'] c) - 1| ≤ 1 / 10 ^ 9
    ∧ (∀ c : Char, c ∈ (trainModel [['a', 'a', 'b']] 1).support ['a'] ↔
        0 < trainCounts (stream [['a', 'a', 'b']] 1) 1 ['a'] c)
    ∧ ∀ c ∈ (trainModel [['a', 'a', 'b']] 1).support ['a'],
        0 < (trainModel [['a', 'a', 'b']] 1).prob ['a'] c) :=
  ⟨by decide, trained_distribution_invariant [['a', 'a', 'b']] 1 ['a'] (by decide)⟩

/-- **C3 counterexample.** Two document lists that are permutations of each
other produce different trained models at order 1: scan windows cross
document boundaries, so a non-final document's last character is followed by
the next document's pad.  Here the history `"b"` occurs for `["ab", "cd"]`
but not for `["cd", "ab"]`. -/
theorem train_not_permutation_invariant :
    ([['a', 'b'], ['c', 'd']] : List (List Char)).Perm [['c', 'd'], ['a', 'b']]
    ∧ trainModel [['a', 'b'], ['c', 'd']] 1 ≠
        trainModel [['c', 'd'], ['a', 'b']] 1 :=
  ⟨List.Perm.swap _ _ _,
    fun h => absurd (congrArg Model.keys h) (by decide)⟩

/-- **C3 amended.** Permuting the documents leaves the multiset of scan
pairs contributed by each padded document on its own unchanged; the full
trained model may still differ, because scan windows crossing a document
boundary depend on which documents are adjacent. -/
theorem blockPairs_perm_invariant (n : ℕ) (docs₁ docs₂ : List (List Char))
    (hp : docs₁.Perm docs₂) :
    (docs₁.map (blockPairs n)).sum = (docs₂.map (blockPairs n)).sum :=
  (hp.map (blockPairs n)).sum_eq

/-- **C3 amended, witness.** The invariance applied to the concrete
permutation of the counterexample's document lists. -/
theorem blockPairs_perm_invariant_witness :
    ([['a', 'b'], ['c', 'd']] : List (List Char)).Perm [['c', 'd'], ['a', 'b']]
    ∧ ([['a', 'b'], ['c', 'd']].map (blockPairs 1)).sum
        = ([['c', 'd'], ['a', 'b']].map (blockPairs 1)).sum :=
  ⟨List.Perm.swap _ _ _,
    blockPairs_perm_invariant 1 _ _ (List.Perm.swap _ _ _)⟩

/-- **C4.** (spec-modelled) `train` on an empty document list fails with
`EmptyStreamError` (for any positive order), and in general whenever the
padded stream length is at most `n`; `perplexity` on an empty test corpus
fails with `EmptyCorpusError`; `train` at order 0 fails with
`InvalidOrderError`. -/
theorem train_perplexity_error_boundaries :
    (∀ n : ℕ, 1 ≤ n → train [] n = .error .emptyStream)
    ∧ (∀ (texts : List (List Char)) (n : ℕ), 1 ≤ n →
        (stream texts n).length ≤ n → train texts n = .error .emptyStream)
    ∧ (∀ (m : Model) (n : ℕ), perplexityChecked m [] n = .error .emptyCorpus)
    ∧ (∀ texts : List (List Char), train texts 0 = .error .invalidOrder) := by
  refine ⟨?_, ?_, ?_, ?_⟩
  · intro n hn
    unfold train
    rw [if_neg (by omega), if_pos (by simp [stream])]
  · intro texts n hn hlen
    unfold train
    rw [if_neg (by omega), if_pos hlen]
  · intro m n
    simp [perplexityChecked]
  · intro texts
    simp [train]

/-- **C4 witness.** The error boundaries at concrete inputs: empty corpus at
order 1, the single empty document at order 1 (padded stream `"~"` of
length 1), an empty test corpus, and order 0. -/
theorem train_perplexity_error_boundaries_witness :
    ((1:ℕ) ≤ 1 ∧ train [] 1 = .error .emptyStream)
    ∧ ((1:ℕ) ≤ 1 ∧ (stream [[]] 1).length ≤ 1 ∧
        train [[]] 1 = .error .emptyStream)
    ∧ perplexityChecked (trainModel [] 1) [] 1 = .error .emptyCorpus
    ∧ train [['a']] 0 = .error .invalidOrder :=
  ⟨⟨le_refl 1, train_perplexity_error_boundaries.1 1 (le_refl 1)⟩,
    ⟨le_refl 1, by decide,
      train_perplexity_error_boundaries.2.1 [[]] 1 (le_refl 1) (by decide)⟩,
    train_perplexity_error_boundaries.2.2.1 (trainModel [] 1) 1,
    train_perplexity_error_boundaries.2.2.2 [['a']]⟩

/-- **C7.** (spec-modelled) If at any generation step the current
`n`-character history is absent from the model, generation fails with
`UnknownHistoryError`; in particular `generate_text` so fails whenever its
initial all-pad history is absent and at least one character is requested. -/
theorem generate_unknown_history_error :
    (∀ (m : Model) (n : ℕ) (rng : ℕ → ℚ) (fuel : ℕ) (hist : List Char)
      (k : ℕ), 1 ≤ fuel → lastN hist n ∉ m.keys →
      genFrom m n rng fuel hist k = .error .unknownHistory)
    ∧ ∀ (m : Model) (n L : ℕ) (rng : ℕ → ℚ), 1 ≤ L →
      lastN (padL n) n ∉ m.keys →
      generate_text m n L rng = .error .unknownHistory := by
  have h1 : ∀ (m : Model) (n : ℕ) (rng : ℕ → ℚ) (fuel : ℕ)
      (hist : List Char) (k : ℕ), 1 ≤ fuel → lastN hist n ∉ m.keys →
      genFrom m n rng fuel hist k = .error .unknownHistory := by
    intro m n rng fuel hist k hf habs
    match fuel, hf with
    | fuel + 1, _ =>
      have hletter : generate_letter m hist n (rng k) =
          .error .unknownHistory := by
        unfold generate_letter
        rw [if_neg habs]
      unfold genFrom
      rw [hletter]
  exact ⟨h1, fun m n L rng hL habs => h1 m n rng L (padL n) 0 hL habs⟩

/-- **C7 witness.** Generation against the empty model (trained on no
documents) fails with `UnknownHistoryError` at the very first step. -/
theorem generate_unknown_history_error_witness :
    ((1:ℕ) ≤ 1 ∧ lastN [] 1 ∉ (trainModel [] 1).keys ∧
      genFrom (trainModel [] 1) 1 (fun _ => 0) 1 [] 0 =
        .error .unknownHistory)
    ∧ (lastN (padL 1) 1 ∉ (trainModel [] 1).keys ∧
      generate_text (trainModel [] 1) 1 1 (fun _ => 0) =
        .error .unknownHistory) :=
  ⟨⟨le_refl 1, by decide,
      generate_unknown_history_error.1 (trainModel [] 1) 1 (fun _ => 0) 1 []
        0 (le_refl 1) (by decide)⟩,
    ⟨by decide,
      generate_unknown_history_error.2 (trainModel [] 1) 1 1 (fun _ => 0)
        (le_refl 1) (by decide)⟩⟩

/-- **C10.** Whenever the padded training stream is longer than `n` (the
trained model is non-empty), the all-pad history is one of the model's
keys; consequently the history the generator looks up first,
`lastN (padL n) n`, is present in a freshly trained such model. -/
theorem pad_history_in_trained_model (texts : List (List Char)) (n : ℕ)
    (hn : 1 ≤ n) (hlen : n < (stream texts n).length) :
    padL n ∈ (trainModel texts n).keys ∧
    lastN (padL n) n ∈ (trainModel texts n).keys := by
  have hne : texts ≠ [] := by
    rintro rfl
    simp [stream] at hlen
  obtain ⟨t, ts, rfl⟩ := List.exists_cons_of_ne_nil hne
  have hh : histAt (stream (t :: ts) n) n 0 = padL n := by
    unfold histAt stream
    rw [List.drop_zero, List.map_cons, List.flatten_cons, List.append_assoc]
    exact List.take_left' (by simp [padL])
  have h0 : (0:ℕ) ∈ Finset.range ((stream (t :: ts) n).length - n) :=
    Finset.mem_range.mpr (by omega)
  have hmem : padL n ∈ (trainModel (t :: ts) n).keys := by
    unfold trainModel
    exact hh ▸ Finset.mem_image_of_mem _ h0
  have hlast : lastN (padL n) n = padL n := by simp [lastN, padL]
  refine ⟨hmem, ?_⟩
  rw [hlast]
  exact hmem

/-- **C10 witness.** The all-pad history `"~"` is a key of the model trained
on the single document `"a"` at order 1 (stream `"~a"`, length 2 > 1). -/
theorem pad_history_in_trained_model_witness :
    ((1:ℕ) ≤ 1 ∧ 1 < (stream [['a']] 1).length) ∧
    (padL 1 ∈ (trainModel [['a']] 1).keys ∧
      lastN (padL 1) 1 ∈ (trainModel [['a']] 1).keys) :=
  ⟨⟨le_refl 1, by decide⟩,
    pad_history_in_trained_model [['a']] 1 (le_refl 1) (by decide)⟩

/-! ### The log-sum as the log of a rational product -/

lemma unkHists_subset_keys (m : Model) (T : List Char) (n : ℕ) :
    unkHists m T n ⊆ m.keys := by
  intro h hh
  unfold unkHists at hh
  obtain ⟨i, hi, rfl⟩ := Finset.mem_image.mp hh
  exact (Finset.mem_filter.mp hi).2.1

/-- `logsum` is the natural log of the rational product `scanProd * corrProd`
whenever every scored probability is positive and every correction
denominator is positive. -/
lemma logSum_eq_log_prod (m : Model) (T : List Char) (n : ℕ)
    (hpos : ∀ i ∈ Finset.range (T.length - n),
      histAt T n i ∈ m.keys ∧ charAt T (i + n) ∈ m.support (histAt T n i) →
      0 < m.prob (histAt T n i) (charAt T (i + n)))
    (hsum : ∀ h ∈ unkHists m T n, 0 < m.sumV h + 1) :
    logSum m T n = Real.log ((scanProd m T n * corrProd m T n : ℚ) : ℝ) := by
  have hA : (∑ i ∈ Finset.range (T.length - n),
      if histAt T n i ∈ m.keys ∧ charAt T (i + n) ∈ m.support (histAt T n i)
      then Real.log ((m.prob (histAt T n i) (charAt T (i + n)) : ℚ) : ℝ)
      else 0)
      = Real.log (∏ i ∈ Finset.range (T.length - n),
        if histAt T n i ∈ m.keys ∧ charAt T (i + n) ∈ m.support (histAt T n i)
        then ((m.prob (histAt T n i) (charAt T (i + n)) : ℚ) : ℝ) else 1) := by
    rw [Real.log_prod]
    · refine Finset.sum_congr rfl (fun i hi => ?_)
      by_cases hP : histAt T n i ∈ m.keys ∧
          charAt T (i + n) ∈ m.support (histAt T n i)
      · rw [if_pos hP, if_pos hP]
      · rw [if_neg hP, if_neg hP, Real.log_one]
    · intro i hi
      by_cases hP : histAt T n i ∈ m.keys ∧
          charAt T (i + n) ∈ m.support (histAt T n i)
      · rw [if_pos hP]
        exact_mod_cast (hpos i hi hP).ne'
      · rw [if_neg hP]
        norm_num
  have hB : (∑ h ∈ unkHists m T n, Real.log (1 / (((m.sumV h : ℚ) : ℝ) + 1)))
      = Real.log (∏ h ∈ unkHists m T n, (1 / (((m.sumV h : ℚ) : ℝ) + 1))) := by
    rw [Real.log_prod]
    intro h hh
    have h1 : (0:ℝ) < ((m.sumV h : ℚ) : ℝ) + 1 := by exact_mod_cast hsum h hh
    positivity
  have hprod1ne : (∏ i ∈ Finset.range (T.length - n),
      if histAt T n i ∈ m.keys ∧ charAt T (i + n) ∈ m.support (histAt T n i)
      then ((m.prob (histAt T n i) (charAt T (i + n)) : ℚ) : ℝ) else 1) ≠ 0 := by
    rw [Finset.prod_ne_zero_iff]
    intro i hi
    by_cases hP : histAt T n i ∈ m.keys ∧
        charAt T (i + n) ∈ m.support (histAt T n i)
    · rw [if_pos hP]
      exact_mod_cast (hpos i hi hP).ne'
    · rw [if_neg hP]
      norm_num
  have hprod2ne : (∏ h ∈ unkHists m T n,
      (1 / (((m.sumV h : ℚ) : ℝ) + 1))) ≠ 0 := by
    rw [Finset.prod_ne_zero_iff]
    intro h hh
    have h1 : (0:ℝ) < ((m.sumV h : ℚ) : ℝ) + 1 := by exact_mod_cast hsum h hh
    positivity
  have hcast1 : ((scanProd m T n : ℚ) : ℝ) =
      ∏ i ∈ Finset.range (T.length - n),
        if histAt T n i ∈ m.keys ∧ charAt T (i + n) ∈ m.support (histAt T n i)
        then ((m.prob (histAt T n i) (charAt T (i + n)) : ℚ) : ℝ) else 1 := by
    unfold scanProd
    rw [Rat.cast_prod]
    refine Finset.prod_congr rfl (fun i _ => ?_)
    rw [apply_ite (fun q : ℚ => (q : ℝ))]
    norm_num
  have hcast2 : ((corrProd m T n : ℚ) : ℝ) =
      ∏ h ∈ unkHists m T n, (1 / (((m.sumV h : ℚ) : ℝ) + 1)) := by
    unfold corrProd
    rw [Rat.cast_prod]
    push_cast
    rfl
  unfold logSum
  rw [hA, hB, ← Real.log_mul hprod1ne hprod2ne, Rat.cast_mul, hcast1, hcast2]

lemma logSum_trainModel_eq (texts : List (List Char)) (n : ℕ)
    (T : List Char) :
    logSum (trainModel texts n) T n =
      Real.log ((scanProd (trainModel texts n) T n *
        corrProd (trainModel texts n) T n : ℚ) : ℝ) :=
  logSum_eq_log_prod _ _ _
    (fun _ _ hP => prob_pos_trainModel hP.2)
    (fun h hh => by
      rw [sumV_trainModel (unkHists_subset_keys _ _ _ hh)]
      norm_num)

/-- For a trained model every correction factor is `1/(1+1)`, so the
correction product is `(1/2)^(number of histories with unknown outcomes)`. -/
lemma corrProd_trainModel (texts : List (List Char)) (n : ℕ)
    (T : List Char) :
    corrProd (trainModel texts n) T n =
      (1 / 2) ^ (unkHists (trainModel texts n) T n).card := by
  unfold corrProd
  rw [Finset.prod_congr rfl (fun h hh => by
    rw [sumV_trainModel (unkHists_subset_keys _ _ _ hh)])]
  rw [Finset.prod_const]
  norm_num

lemma scanProd_trainModel_pos (texts : List (List Char)) (n : ℕ)
    (T : List Char) : 0 < scanProd (trainModel texts n) T n := by
  refine Finset.prod_pos (fun i _ => ?_)
  by_cases hP : histAt T n i ∈ (trainModel texts n).keys ∧
      charAt T (i + n) ∈ (trainModel texts n).support (histAt T n i)
  · rw [if_pos hP]
    exact prob_pos_trainModel hP.2
  · rw [if_neg hP]
    norm_num

lemma scanProd_trainModel_le_one (texts : List (List Char)) (n : ℕ)
    (T : List Char) : scanProd (trainModel texts n) T n ≤ 1 := by
  refine Finset.prod_le_one (fun i _ => ?_) (fun i _ => ?_)
  · by_cases hP : histAt T n i ∈ (trainModel texts n).keys ∧
        charAt T (i + n) ∈ (trainModel texts n).support (histAt T n i)
    · rw [if_pos hP]
      exact prob_nonneg_trainModel _ _ _ _
    · rw [if_neg hP]
      norm_num
  · by_cases hP : histAt T n i ∈ (trainModel texts n).keys ∧
        charAt T (i + n) ∈ (trainModel texts n).support (histAt T n i)
    · rw [if_pos hP]
      exact prob_le_one_trainModel _ _ _ _
    · rw [if_neg hP]

lemma corrProd_trainModel_pos (texts : List (List Char)) (n : ℕ)
    (T : List Char) : 0 < corrProd (trainModel texts n) T n := by
  rw [corrProd_trainModel]
  positivity

lemma corrProd_trainModel_le_one (texts : List (List Char)) (n : ℕ)
    (T : List Char) : corrProd (trainModel texts n) T n ≤ 1 := by
  rw [corrProd_trainModel]
  exact pow_le_one₀ (by norm_num) (by norm_num)

/-- Length of the padded stream: `n` pad characters per document plus the
documents' own lengths. -/
lemma stream_length (texts : List (List Char)) (n : ℕ) :
    (stream texts n).length = n * texts.length + (texts.map List.length).sum := by
  unfold stream
  rw [List.length_flatten]
  induction texts with
  | nil => simp
  | cons t ts ih =>
    simp only [List.map_cons, List.sum_cons, List.length_append, List.length_cons]
    rw [ih]
    simp [padL, Nat.mul_succ]
    ring

/-- The scan product of a trained model as a ratio of two natural-number
products: the product of the scored counts over the product of the scored
count totals.  This makes the rational value computable at the `ℕ` level. -/
lemma scanProd_trainModel_eq_ratio (texts : List (List Char)) (n : ℕ)
    (T : List Char) :
    scanProd (trainModel texts n) T n =
      ((∏ i ∈ Finset.range (T.length - n),
        if histAt T n i ∈ (trainModel texts n).keys ∧
            charAt T (i + n) ∈ (trainModel texts n).support (histAt T n i)
        then trainCounts (stream texts n) n (histAt T n i) (charAt T (i + n))
        else 1 : ℕ) : ℚ) /
      ((∏ i ∈ Finset.range (T.length - n),
        if histAt T n i ∈ (trainModel texts n).keys ∧
            charAt T (i + n) ∈ (trainModel texts n).support (histAt T n i)
        then sumCounts (stream texts n) n (histAt T n i)
        else 1 : ℕ) : ℚ) := by
  unfold scanProd
  rw [Nat.cast_prod, Nat.cast_prod, ← Finset.prod_div_distrib]
  refine Finset.prod_congr rfl (fun i _ => ?_)
  by_cases hP : histAt T n i ∈ (trainModel texts n).keys ∧
      charAt T (i + n) ∈ (trainModel texts n).support (histAt T n i)
  · rw [if_pos hP, if_pos hP, if_pos hP, prob_trainModel]
  · rw [if_neg hP, if_neg hP, if_neg hP]
    norm_num

/-- **C2 counterexample.** Train on `"aab"` at order 1 and score `"ac"`.
The history `"a"` occurred twice in training (`total_count = 2`), and the
test character `'c'` is unseen after it, so the claim predicts the
correction term `ln(1/(2+1))`.  The code instead computes
`sum(lm[h].values())` on the *normalized* distribution, which is `1`, so the
one correction term it adds is `ln(1/2)`: the whole log-sum is `ln(1/2)`
(the only scored position has probability `1`), which differs from
`ln(1/(2+1))`. -/
theorem correction_uses_prob_sum_not_counts :
    histPositions (stream [['a', 'a', 'b']] 1) 1 ['a'] = 2
    ∧ unkHists (trainModel [['a', 'a', 'b']] 1) (stream [['a', 'c']] 1) 1 =
        {['a']}
    ∧ logSum (trainModel [['a', 'a', 'b']] 1) (stream [['a', 'c']] 1) 1 =
        Real.log ((1 : ℝ) / 2)
    ∧ logSum (trainModel [['a', 'a', 'b']] 1) (stream [['a', 'c']] 1) 1 ≠
        Real.log (1 / ((2 : ℝ) + 1)) := by
  have hprod : scanProd (trainModel [['a', 'a', 'b']] 1)
      (stream [['a', 'c']] 1) 1 *
      corrProd (trainModel [['a', 'a', 'b']] 1) (stream [['a', 'c']] 1) 1 =
      1 / 2 := by
    rw [scanProd_trainModel_eq_ratio, corrProd_trainModel]
    rw [show (∏ i ∈ Finset.range ((stream [['a', 'c']] 1).length - 1),
      if histAt (stream [['a', 'c']] 1) 1 i ∈
          (trainModel [['a', 'a', 'b']] 1).keys ∧
          charAt (stream [['a', 'c']] 1) (i + 1) ∈
            (trainModel [['a', 'a', 'b']] 1).support
              (histAt (stream [['a', 'c']] 1) 1 i)
      then trainCounts (stream [['a', 'a', 'b']] 1) 1
        (histAt (stream [['a', 'c']] 1) 1 i)
        (charAt (stream [['a', 'c']] 1) (i + 1))
      else 1 : ℕ) = 1 from by decide]
    rw [show (∏ i ∈ Finset.range ((stream [['a', 'c']] 1).length - 1),
      if histAt (stream [['a', 'c']] 1) 1 i ∈
          (trainModel [['a', 'a', 'b']] 1).keys ∧
          charAt (stream [['a', 'c']] 1) (i + 1) ∈
            (trainModel [['a', 'a', 'b']] 1).support
              (histAt (stream [['a', 'c']] 1) 1 i)
      then sumCounts (stream [['a', 'a', 'b']] 1) 1
        (histAt (stream [['a', 'c']] 1) 1 i)
      else 1 : ℕ) = 1 from by decide]
    rw [show (unkHists (trainModel [['a', 'a', 'b']] 1)
      (stream [['a', 'c']] 1) 1).card = 1 from by decide]
    norm_num
  have hls : logSum (trainModel [['a', 'a', 'b']] 1)
      (stream [['a', 'c']] 1) 1 = Real.log ((1 : ℝ) / 2) := by
    rw [logSum_trainModel_eq, hprod]
    norm_num
  have h13 : Real.log (1 / ((2 : ℝ) + 1)) < Real.log ((1 : ℝ) / 2) :=
    Real.log_lt_log (by norm_num) (by norm_num)
  refine ⟨by decide, by decide, hls, ?_⟩
  rw [hls]
  exact h13.ne'

/-- **C2 amended.** In `perplexity` against a trained model, every history
that is present in the model and accumulated unknown-outcome occurrences
contributes exactly one correction term, and that term is
`ln(1/(sum_of_distribution_values + 1)) = ln(1/2)` — the sum of the
history's *normalized probability values* plus one, not the history's
training count plus one. -/
theorem correction_once_per_history_log_half (texts : List (List Char))
    (n : ℕ) (T : List Char) :
    logSum (trainModel texts n) T n =
      (∑ i ∈ Finset.range (T.length - n),
        if histAt T n i ∈ (trainModel texts n).keys ∧
            charAt T (i + n) ∈ (trainModel texts n).support (histAt T n i)
        then Real.log (((trainModel texts n).prob (histAt T n i)
          (charAt T (i + n)) : ℚ) : ℝ)
        else 0)
      + ((unkHists (trainModel texts n) T n).card : ℝ) *
          Real.log ((1 : ℝ) / 2) := by
  unfold logSum
  congr 1
  have hc : ∀ h ∈ unkHists (trainModel texts n) T n,
      Real.log (1 / ((((trainModel texts n).sumV h : ℚ) : ℝ) + 1)) =
        Real.log ((1 : ℝ) / 2) := by
    intro h hh
    rw [sumV_trainModel (unkHists_subset_keys _ _ _ hh)]
    norm_num
  rw [Finset.sum_congr rfl hc, Finset.sum_const, nsmul_eq_mul]

/-- **C6.** `perplexity` returns `exp(-log_sum / stream_length)` where the
denominator is the full padded test stream length (`n` pads per document
plus the documents' lengths) and the log-sum ranges only over scan positions
whose history is present in the model: positions with absent histories
contribute nothing to the numerator yet are counted in the denominator. -/
theorem perplexity_full_length_denominator (m : Model)
    (texts : List (List Char)) (n : ℕ) (hn : 1 ≤ n) (hne : texts ≠ []) :
    perplexity m texts n =
      Real.exp (-(
        (∑ i ∈ (Finset.range ((stream texts n).length - n)).filter
            (fun i => histAt (stream texts n) n i ∈ m.keys),
          if charAt (stream texts n) (i + n) ∈
              m.support (histAt (stream texts n) n i)
          then Real.log ((m.prob (histAt (stream texts n) n i)
            (charAt (stream texts n) (i + n)) : ℚ) : ℝ)
          else 0)
        + ∑ h ∈ unkHists m (stream texts n) n,
            Real.log (1 / (((m.sumV h : ℚ) : ℝ) + 1)))
        / ((n * texts.length + (texts.map List.length).sum : ℕ) : ℝ)) := by
  have hA : (∑ i ∈ Finset.range ((stream texts n).length - n),
      if histAt (stream texts n) n i ∈ m.keys ∧
          charAt (stream texts n) (i + n) ∈
            m.support (histAt (stream texts n) n i)
      then Real.log ((m.prob (histAt (stream texts n) n i)
        (charAt (stream texts n) (i + n)) : ℚ) : ℝ)
      else 0)
      = ∑ i ∈ (Finset.range ((stream texts n).length - n)).filter
          (fun i => histAt (stream texts n) n i ∈ m.keys),
        if charAt (stream texts n) (i + n) ∈
            m.support (histAt (stream texts n) n i)
        then Real.log ((m.prob (histAt (stream texts n) n i)
          (charAt (stream texts n) (i + n)) : ℚ) : ℝ)
        else 0 := by
    rw [Finset.sum_filter]
    refine Finset.sum_congr rfl (fun i _ => ?_)
    by_cases h1 : histAt (stream texts n) n i ∈ m.keys
    · by_cases h2 : charAt (stream texts n) (i + n) ∈
          m.support (histAt (stream texts n) n i)
      · simp [h1, h2]
      · simp [h1, h2]
    · simp [h1]
  unfold perplexity logSum
  rw [hA, stream_length texts n]

/-- **C6 witness.** The formula instantiated at the model trained on `"a"`
at order 1, scoring the corpus `["a"]`. -/
theorem perplexity_full_length_denominator_witness :
    ((1:ℕ) ≤ 1 ∧ ([['a']] : List (List Char)) ≠ []) ∧
    perplexity (trainModel [['a']] 1) [['a']] 1 =
      Real.exp (-(
        (∑ i ∈ (Finset.range ((stream [['a']] 1).length - 1)).filter
            (fun i => histAt (stream [['a']] 1) 1 i ∈
              (trainModel [['a']] 1).keys),
          if charAt (stream [['a']] 1) (i + 1) ∈
              (trainModel [['a']] 1).support (histAt (stream [['a']] 1) 1 i)
          then Real.log (((trainModel [['a']] 1).prob
            (histAt (stream [['a']] 1) 1 i)
            (charAt (stream [['a']] 1) (i + 1)) : ℚ) : ℝ)
          else 0)
        + ∑ h ∈ unkHists (trainModel [['a']] 1) (stream [['a']] 1) 1,
            Real.log (1 / ((((trainModel [['a']] 1).sumV h : ℚ) : ℝ) + 1)))
        / ((1 * ([['a']] : List (List Char)).length +
            ([['a']].map List.length).sum : ℕ) : ℝ)) :=
  ⟨⟨le_refl 1, by simp⟩,
    perplexity_full_length_denominator (trainModel [['a']] 1) [['a']] 1
      (le_refl 1) (by simp)⟩

/-- **C9.** Perplexity of any trained model on a non-empty test corpus is at
least `1`: every scored probability lies in `(0, 1]` and every correction
factor is `1/2`, so the log-sum is nonpositive. -/
theorem perplexity_ge_one (texts testTexts : List (List Char)) (n : ℕ)
    (hn : 1 ≤ n) (hne : testTexts ≠ []) :
    1 ≤ perplexity (trainModel texts n) testTexts n := by
  unfold perplexity
  rw [logSum_trainModel_eq]
  apply Real.one_le_exp
  apply div_nonneg _ (Nat.cast_nonneg _)
  rw [neg_nonneg]
  apply Real.log_nonpos
  · have := mul_pos (scanProd_trainModel_pos texts n (stream testTexts n))
      (corrProd_trainModel_pos texts n (stream testTexts n))
    exact_mod_cast this.le
  · have h1 := scanProd_trainModel_le_one texts n (stream testTexts n)
    have h2 := corrProd_trainModel_le_one texts n (stream testTexts n)
    have h3 := (corrProd_trainModel_pos texts n (stream testTexts n)).le
    have : scanProd (trainModel texts n) (stream testTexts n) n *
        corrProd (trainModel texts n) (stream testTexts n) n ≤ 1 :=
      mul_le_one₀ h1 h3 h2
    exact_mod_cast this

/-- **C9 witness.** The bound instantiated at the model trained on `"a"`,
scoring `["a"]` at order 1. -/
theorem perplexity_ge_one_witness :
    ((1:ℕ) ≤ 1 ∧ ([['a']] : List (List Char)) ≠ []) ∧
    1 ≤ perplexity (trainModel [['a']] 1) [['a']] 1 :=
  ⟨⟨le_refl 1, by simp⟩,
    perplexity_ge_one [['a']] [['a']] 1 (le_refl 1) (by simp)⟩

/-! ### Golden vectors -/

/-- The golden-vector training and test document
`"The wheel has come full circle."`. -/
def wheelDoc : List Char := "The wheel has come full circle.".toList

/-- The corrupted golden-vector test document
`"Tha weeel cos tome hell circle."`. -/
def corruptDoc : List Char := "Tha weeel cos tome hell circle.".toList

lemma perplexity_pos (m : Model) (testTexts : List (List Char)) (n : ℕ) :
    0 < perplexity m testTexts n := Real.exp_pos _

/-- Raising `perplexity` of a trained model to the padded test stream length
recovers the inverse of the rational product underlying the log-sum. -/
lemma perplexity_pow (texts testTexts : List (List Char)) (n : ℕ) (Q : ℚ)
    (L : ℕ)
    (hQ : scanProd (trainModel texts n) (stream testTexts n) n *
        corrProd (trainModel texts n) (stream testTexts n) n = Q)
    (hQpos : 0 < Q) (hL : (stream testTexts n).length = L) (hL0 : 0 < L) :
    perplexity (trainModel texts n) testTexts n ^ L = ((Q : ℚ) : ℝ)⁻¹ := by
  unfold perplexity
  rw [logSum_trainModel_eq, hQ, hL, ← Real.exp_nat_mul]
  have hLne : ((L : ℝ)) ≠ 0 := by exact_mod_cast hL0.ne'
  have hc : (L : ℝ) * (-(Real.log ((Q : ℚ) : ℝ)) / (L : ℝ)) =
      -(Real.log ((Q : ℚ) : ℝ)) := by
    field_simp
    ring
  rw [hc, Real.exp_neg, Real.exp_log (by exact_mod_cast hQpos)]

lemma le_of_pow33_le {a b : ℝ} (ha : 0 ≤ a) (hb : 0 ≤ b)
    (h : a ^ 33 ≤ b ^ 33) : a ≤ b := by
  by_contra hab
  push_neg at hab
  exact absurd h (not_le.mpr (pow_lt_pow_left₀ hab hb (by norm_num)))

/-- **C8.** Training on `"The wheel has come full circle."` at order 2 and
scoring the same string yields perplexity within `1e-6` of
`1.1829788187396464`; scoring `"Tha weeel cos tome hell circle."` against
the same model yields perplexity within `1e-6` of `1.3418676875883773`.
(The exact values are `256^(1/33)` and `16384^(1/33)`.) -/
theorem golden_vector_perplexities :
    |perplexity (trainModel [wheelDoc] 2) [wheelDoc] 2 -
        (11829788187396464 / 10 ^ 16 : ℝ)| ≤ 1 / 10 ^ 6
    ∧ |perplexity (trainModel [wheelDoc] 2) [corruptDoc] 2 -
        (13418676875883773 / 10 ^ 16 : ℝ)| ≤ 1 / 10 ^ 6 := by
  have hQ1 : scanProd (trainModel [wheelDoc] 2) (stream [wheelDoc] 2) 2 *
      corrProd (trainModel [wheelDoc] 2) (stream [wheelDoc] 2) 2 =
      1 / 256 := by
    rw [scanProd_trainModel_eq_ratio, corrProd_trainModel]
    rw [show (∏ i ∈ Finset.range ((stream [wheelDoc] 2).length - 2),
      if histAt (stream [wheelDoc] 2) 2 i ∈ (trainModel [wheelDoc] 2).keys ∧
          charAt (stream [wheelDoc] 2) (i + 2) ∈
            (trainModel [wheelDoc] 2).support (histAt (stream [wheelDoc] 2) 2 i)
      then trainCounts (stream [wheelDoc] 2) 2
        (histAt (stream [wheelDoc] 2) 2 i) (charAt (stream [wheelDoc] 2) (i + 2))
      else 1 : ℕ) = 1 from by decide]
    rw [show (∏ i ∈ Finset.range ((stream [wheelDoc] 2).length - 2),
      if histAt (stream [wheelDoc] 2) 2 i ∈ (trainModel [wheelDoc] 2).keys ∧
          charAt (stream [wheelDoc] 2) (i + 2) ∈
            (trainModel [wheelDoc] 2).support (histAt (stream [wheelDoc] 2) 2 i)
      then sumCounts (stream [wheelDoc] 2) 2 (histAt (stream [wheelDoc] 2) 2 i)
      else 1 : ℕ) = 256 from by decide]
    rw [show (unkHists (trainModel [wheelDoc] 2)
      (stream [wheelDoc] 2) 2).card = 0 from by decide]
    norm_num
  have hQ2 : scanProd (trainModel [wheelDoc] 2) (stream [corruptDoc] 2) 2 *
      corrProd (trainModel [wheelDoc] 2) (stream [corruptDoc] 2) 2 =
      1 / 16384 := by
    rw [scanProd_trainModel_eq_ratio, corrProd_trainModel]
    rw [show (∏ i ∈ Finset.range ((stream [corruptDoc] 2).length - 2),
      if histAt (stream [corruptDoc] 2) 2 i ∈ (trainModel [wheelDoc] 2).keys ∧
          charAt (stream [corruptDoc] 2) (i + 2) ∈
            (trainModel [wheelDoc] 2).support
              (histAt (stream [corruptDoc] 2) 2 i)
      then trainCounts (stream [wheelDoc] 2) 2
        (histAt (stream [corruptDoc] 2) 2 i)
        (charAt (stream [corruptDoc] 2) (i + 2))
      else 1 : ℕ) = 1 from by decide]
    rw [show (∏ i ∈ Finset.range ((stream [corruptDoc] 2).length - 2),
      if histAt (stream [corruptDoc] 2) 2 i ∈ (trainModel [wheelDoc] 2).keys ∧
          charAt (stream [corruptDoc] 2) (i + 2) ∈
            (trainModel [wheelDoc] 2).support
              (histAt (stream [corruptDoc] 2) 2 i)
      then sumCounts (stream [wheelDoc] 2) 2
        (histAt (stream [corruptDoc] 2) 2 i)
      else 1 : ℕ) = 16 from by decide]
    rw [show (unkHists (trainModel [wheelDoc] 2)
      (stream [corruptDoc] 2) 2).card = 10 from by decide]
    norm_num
  have hp1 : perplexity (trainModel [wheelDoc] 2) [wheelDoc] 2 ^ 33 =
      ((1 / 256 : ℚ) : ℝ)⁻¹ :=
    perplexity_pow [wheelDoc] [wheelDoc] 2 (1 / 256) 33 hQ1 (by norm_num)
      (by decide) (by norm_num)
  have hp2 : perplexity (trainModel [wheelDoc] 2) [corruptDoc] 2 ^ 33 =
      ((1 / 16384 : ℚ) : ℝ)⁻¹ :=
    perplexity_pow [wheelDoc] [corruptDoc] 2 (1 / 16384) 33 hQ2 (by norm_num)
      (by decide) (by norm_num)
  have h256 : perplexity (trainModel [wheelDoc] 2) [wheelDoc] 2 ^ 33 =
      (256 : ℝ) := by
    rw [hp1]
    norm_num
  have h16384 : perplexity (trainModel [wheelDoc] 2) [corruptDoc] 2 ^ 33 =
      (16384 : ℝ) := by
    rw [hp2]
    norm_num
  have hx1 : (0:ℝ) ≤ perplexity (trainModel [wheelDoc] 2) [wheelDoc] 2 :=
    (perplexity_pos _ _ _).le
  have hx2 : (0:ℝ) ≤ perplexity (trainModel [wheelDoc] 2) [corruptDoc] 2 :=
    (perplexity_pos _ _ _).le
  have hlo1 : (11829778187396464 / 10 ^ 16 : ℝ) ≤
      perplexity (trainModel [wheelDoc] 2) [wheelDoc] 2 := by
    refine le_of_pow33_le (by norm_num) hx1 ?_
    rw [h256]
    norm_num
  have hhi1 : perplexity (trainModel [wheelDoc] 2) [wheelDoc] 2 ≤
      (11829798187396464 / 10 ^ 16 : ℝ) := by
    refine le_of_pow33_le hx1 (by norm_num) ?_
    rw [h256]
    norm_num
  have hlo2 : (13418666875883773 / 10 ^ 16 : ℝ) ≤
      perplexity (trainModel [wheelDoc] 2) [corruptDoc] 2 := by
    refine le_of_pow33_le (by norm_num) hx2 ?_
    rw [h16384]
    norm_num
  have hhi2 : perplexity (trainModel [wheelDoc] 2) [corruptDoc] 2 ≤
      (13418686875883773 / 10 ^ 16 : ℝ) := by
    refine le_of_pow33_le hx2 (by norm_num) ?_
    rw [h16384]
    norm_num
  constructor
  · rw [abs_le]
    constructor
    · linarith
    · linarith
  · rw [abs_le]
    constructor
    · linarith
    · linarith

end NGram
